import Mathlib

/-!
Shallow embedding of the thread-count optimizer of the MRI-Workflow
repository (`src/optimize_throughput.py` and `src/optimize_workflow.py`).

Modelling conventions: Python floats are embedded as rationals (`ℚ`),
Python ints as `ℤ` (or `ℕ` where the source value is a count such as a
core count or a thread count), a Python dict as an association list kept
in insertion order, and a Python function that can raise as an
`Option`-valued function whose `none` is the raised exception.
-/

namespace MRIWorkflow

/-- One reference runtime curve: association list `thread_count ↦ minutes
per job at reference speed`, in dict insertion order (`runtime_curve` in
both source files). -/
abbrev Curve := List (ℕ × ℚ)

/-- Python `v or 1` on an integer value `v`: `1` when `v = 0`, else `v`. -/
def pyOr1 (v : ℤ) : ℤ := if v = 0 then 1 else v

/-- Python `v or 1` on a natural value `v`. -/
def pyOr1Nat (v : ℕ) : ℕ := if v = 0 then 1 else v

/-- Embeds `ram_conc = int(total_ram * safe_frac // mem_per_job) or 1`
(`best_thread_count`, both sources: optimize_throughput.py line 125,
optimize_workflow.py line 110). -/
def ram_conc (total_ram safe_frac mem_per_job : ℚ) : ℤ :=
  pyOr1 ⌊total_ram * safe_frac / mem_per_job⌋

/-- Embeds `cpu_conc = cores // t or 1` (`best_thread_count`, both
sources). -/
def cpu_conc (cores t : ℕ) : ℕ := pyOr1Nat (cores / t)

/-- Concurrency computed for one thread count `t` inside
`best_thread_count`: `conc = min(ram_conc, cpu_conc)`, then
`conc = min(conc, max_jobs)` when a cap is given. -/
def capacity (total_ram mem_per_job safe_frac : ℚ) (cores t : ℕ)
    (max_jobs : Option ℤ) : ℤ :=
  let conc := min (ram_conc total_ram safe_frac mem_per_job) (cpu_conc cores t : ℤ)
  match max_jobs with
  | some m => min conc m
  | none => conc

/-- Python tuple comparison `cand > best` on `(tph, t, conc)` triples:
lexicographic, left to right. -/
def candGT (a b : ℚ × ℕ × ℤ) : Prop :=
  b.1 < a.1 ∨ (a.1 = b.1 ∧ (b.2.1 < a.2.1 ∨ (a.2.1 = b.2.1 ∧ b.2.2 < a.2.2)))

instance candGT.instDecidable (a b : ℚ × ℕ × ℤ) : Decidable (candGT a b) := by
  unfold candGT; infer_instance

/-- Lexicographic `≤` on `(tph, t, conc)` triples, the complement of
`candGT`. -/
def candLE (a b : ℚ × ℕ × ℤ) : Prop :=
  a.1 < b.1 ∨ (a.1 = b.1 ∧ (a.2.1 < b.2.1 ∨ (a.2.1 = b.2.1 ∧ a.2.2 ≤ b.2.2)))

/-- Candidate built for curve entry `p = (t, rt_min)` in the
`best_thread_count` loop: `cand = (tph, t, conc)` with
`conc = capacity ...` and `tph = conc / rt_min * 60`. -/
def candOf (total_ram mem_per_job safe_frac : ℚ) (cores : ℕ) (max_jobs : Option ℤ)
    (p : ℕ × ℚ) : ℚ × ℕ × ℤ :=
  let conc := capacity total_ram mem_per_job safe_frac cores p.1 max_jobs
  ((conc : ℚ) / p.2 * 60, p.1, conc)

/-- The fold performed by the `for t, rt_min in runtime_curve.items()`
loop of `best_thread_count`: replace the accumulator exactly when the new
candidate compares strictly greater. -/
def bestLoop (total_ram mem_per_job safe_frac : ℚ) (cores : ℕ) (max_jobs : Option ℤ) :
    Curve → Option (ℚ × ℕ × ℤ) → Option (ℚ × ℕ × ℤ)
  | [], best => best
  | p :: rest, best =>
    let cand := candOf total_ram mem_per_job safe_frac cores max_jobs p
    match best with
    | none => bestLoop total_ram mem_per_job safe_frac cores max_jobs rest (some cand)
    | some b =>
      bestLoop total_ram mem_per_job safe_frac cores max_jobs rest
        (if candGT cand b then some cand else some b)

/-- Embeds `best_thread_count(runtime_curve, total_ram, mem_per_job,
safe_frac, cores, max_jobs)` (both sources).  Returns
`some (best_threads, max_concurrency, jobs_per_h_at_ref_speed)`; `none`
models the `RuntimeError` raised when the loop found no candidate. -/
def best_thread_count (runtime_curve : Curve) (total_ram mem_per_job safe_frac : ℚ)
    (cores : ℕ) (max_jobs : Option ℤ) : Option (ℕ × ℤ × ℚ) :=
  match bestLoop total_ram mem_per_job safe_frac cores max_jobs runtime_curve none with
  | none => none
  | some b => some (b.2.1, b.2.2, b.1)

/-- Embeds the curve filter in `main`:
`curve = {t: m for t, m in RUNTIME_TABLE[wf].items() if t <= cores}`
(optimize_throughput.py line 176, optimize_workflow.py line 170). -/
def mainCurve (table : Curve) (cores : ℕ) : Curve :=
  table.filter fun p => decide (p.1 ≤ cores)

/-- Embeds `CAP_THREADS = 24` (the PLATEAU constant, both sources). -/
def CAP_THREADS : ℕ := 24

/-- Embeds `ideal = max(1, cores // subjects); ideal = min(ideal,
CAP_THREADS)` (optimize_throughput.py lines 209-210). -/
def idealThreads (cores subjects : ℕ) : ℕ :=
  min (max 1 (cores / subjects)) CAP_THREADS

/-- Embeds the guard of the shortcut branch:
`if args.subjects > 0 and cores > args.subjects` (optimize_throughput.py
line 208). -/
def shortcutTriggered (subjects cores : ℕ) : Bool :=
  decide (0 < subjects) && decide (subjects < cores)

/-- Embeds `best_conc = args.subjects` in the shortcut branch
(optimize_throughput.py line 226): concurrency is fixed at the subject
count. -/
def shortcutConc (subjects : ℕ) : ℕ := subjects

/-- Embeds the linear interpolation
`rt_min = m_low + (m_high - m_low) * (ideal - lower) / (upper - lower)`
(optimize_throughput.py line 220). -/
def interpRuntime (lower upper : ℕ) (m_low m_high : ℚ) (ideal : ℕ) : ℚ :=
  m_low + (m_high - m_low) * ((ideal : ℚ) - (lower : ℚ)) / ((upper : ℚ) - (lower : ℚ))

/-- Embeds the shortcut runtime selection (optimize_throughput.py lines
209-225): clamp `ideal`, use the tabulated runtime when present, else
interpolate between the nearest lower and upper keys, else fall back to
the single available side and reset `ideal` to that key.  Returns
`some (reported_ideal, rt_min)`; `none` models the crash when the table
is empty. -/
def shortcut (table : Curve) (cores subjects : ℕ) : Option (ℕ × ℚ) :=
  let ideal := idealThreads cores subjects
  let keys := table.map Prod.fst
  match table.lookup ideal with
  | some rt => some (ideal, rt)
  | none =>
    match (keys.filter fun t => decide (t < ideal)).max?,
          (keys.filter fun t => decide (ideal < t)).min? with
    | some lower, some upper =>
      match table.lookup lower, table.lookup upper with
      | some m_low, some m_high =>
        some (ideal, interpRuntime lower upper m_low m_high ideal)
      | _, _ => none
    | some lower, none =>
      match table.lookup lower with
      | some rt => some (lower, rt)
      | none => none
    | none, some upper =>
      match table.lookup upper with
      | some rt => some (upper, rt)
      | none => none
    | none, none => none

/-- One two-phase batching plan as printed by `main` (optimize_workflow.py
lines 224-249): phase-1 full batches at concurrency `conc_full`, then the
remainder batch with its own optimizer run. -/
structure BatchPlan where
  full_batches : ℤ
  done : ℤ
  tph1 : ℚ
  t1 : ℚ
  remain : ℤ
  tph2 : ℚ
  t2 : ℚ
  total_sec : ℚ

/-- Embeds the two-phase fallback of `main` (optimize_workflow.py lines
224-249, optimize_throughput.py lines 265-294): given the phase-1 result
`(conc_full, ref_tph_full)` and the scaling factor `k`, compute
`full_batches = total // conc_full`, `done = full_batches * conc_full`,
phase-1 seconds, the remainder, and — when the remainder is nonzero — the
remainder phase from a fresh `best_thread_count` run capped at the
remainder.  Python `//` on ints is floor division, i.e. `Int.fdiv`.
Returns `none` when the inner optimizer run raises. -/
def batchPlan (curve : Curve) (total_ram mem_per_job safe_frac : ℚ) (cores : ℕ)
    (k : ℚ) (total : ℕ) (conc_full : ℤ) (ref_tph_full : ℚ) : Option BatchPlan :=
  let tph := ref_tph_full * k
  let full_batches := Int.fdiv (total : ℤ) conc_full
  let done := full_batches * conc_full
  let t1 : ℚ := (done : ℚ) / tph * 3600
  let remain := (total : ℤ) - done
  if remain = 0 then
    some ⟨full_batches, done, tph, t1, remain, 0, 0, t1⟩
  else
    match best_thread_count curve total_ram mem_per_job safe_frac cores (some remain) with
    | some b =>
      let tph_r := b.2.2 * k
      let t2 : ℚ := (remain : ℚ) / tph_r * 3600
      some ⟨full_batches, done, tph, t1, remain, tph_r, t2, t1 + t2⟩
    | none => none

section OrderLemmas

lemma candLE_refl (a : ℚ × ℕ × ℤ) : candLE a a :=
  Or.inr ⟨rfl, Or.inr ⟨rfl, le_refl _⟩⟩

lemma candLE_trans {a b c : ℚ × ℕ × ℤ} (h1 : candLE a b) (h2 : candLE b c) :
    candLE a c := by
  rcases h1 with h1 | ⟨e1, h1⟩
  · rcases h2 with h2 | ⟨e2, h2⟩
    · exact Or.inl (h1.trans h2)
    · exact Or.inl (lt_of_lt_of_eq h1 e2)
  · rcases h2 with h2 | ⟨e2, h2⟩
    · exact Or.inl (lt_of_eq_of_lt e1 h2)
    · refine Or.inr ⟨e1.trans e2, ?_⟩
      rcases h1 with h1 | ⟨f1, h1⟩ <;> rcases h2 with h2 | ⟨f2, h2⟩
      · exact Or.inl (h1.trans h2)
      · exact Or.inl (lt_of_lt_of_eq h1 f2)
      · exact Or.inl (lt_of_eq_of_lt f1 h2)
      · exact Or.inr ⟨f1.trans f2, h1.trans h2⟩

lemma candLE_of_not_candGT {a b : ℚ × ℕ × ℤ} (h : ¬ candGT a b) : candLE a b := by
  unfold candGT at h
  push_neg at h
  obtain ⟨h1, h2⟩ := h
  rcases lt_or_eq_of_le h1 with hlt | heq
  · exact Or.inl hlt
  · refine Or.inr ⟨heq, ?_⟩
    obtain ⟨g1, g2⟩ := h2 heq
    rcases lt_or_eq_of_le g1 with glt | geq
    · exact Or.inl glt
    · exact Or.inr ⟨geq, g2 geq⟩

lemma candLE_of_candGT {a b : ℚ × ℕ × ℤ} (h : candGT a b) : candLE b a := by
  rcases h with h | ⟨e, h⟩
  · exact Or.inl h
  · refine Or.inr ⟨e.symm, ?_⟩
    rcases h with h | ⟨f, h⟩
    · exact Or.inl h
    · exact Or.inr ⟨f.symm, le_of_lt h⟩

lemma candLE_fst {a b : ℚ × ℕ × ℤ} (h : candLE a b) : a.1 ≤ b.1 := by
  rcases h with h | ⟨e, _⟩
  · exact le_of_lt h
  · exact le_of_eq e

end OrderLemmas

section BestLoopLemmas

variable (total_ram mem_per_job safe_frac : ℚ) (cores : ℕ) (max_jobs : Option ℤ)

lemma bestLoop_spec :
    ∀ (l : Curve) (b : ℚ × ℕ × ℤ),
      ∃ b', bestLoop total_ram mem_per_job safe_frac cores max_jobs l (some b) = some b' ∧
        (b' = b ∨ ∃ p ∈ l, b' = candOf total_ram mem_per_job safe_frac cores max_jobs p) ∧
        candLE b b' ∧
        ∀ p ∈ l, candLE (candOf total_ram mem_per_job safe_frac cores max_jobs p) b' := by
  intro l
  induction l with
  | nil =>
    intro b
    exact ⟨b, rfl, Or.inl rfl, candLE_refl b, by simp⟩
  | cons p rest ih =>
    intro b
    by_cases hgt : candGT (candOf total_ram mem_per_job safe_frac cores max_jobs p) b
    · obtain ⟨b', hrun, hmem, hle, hall⟩ :=
        ih (candOf total_ram mem_per_job safe_frac cores max_jobs p)
      refine ⟨b', ?_, ?_, ?_, ?_⟩
      · simpa [bestLoop, hgt] using hrun
      · rcases hmem with h | ⟨q, hq, hb⟩
        · exact Or.inr ⟨p, List.mem_cons_self p rest, h⟩
        · exact Or.inr ⟨q, List.mem_cons_of_mem p hq, hb⟩
      · exact candLE_trans (candLE_of_candGT hgt) hle
      · intro q hq
        rcases List.mem_cons.mp hq with h | h
        · exact h ▸ hle
        · exact hall q h
    · obtain ⟨b', hrun, hmem, hle, hall⟩ := ih b
      refine ⟨b', ?_, ?_, hle, ?_⟩
      · simpa [bestLoop, hgt] using hrun
      · rcases hmem with h | ⟨q, hq, hb⟩
        · exact Or.inl h
        · exact Or.inr ⟨q, List.mem_cons_of_mem p hq, hb⟩
      · intro q hq
        rcases List.mem_cons.mp hq with h | h
        · exact h ▸ candLE_trans (candLE_of_not_candGT hgt) hle
        · exact hall q h

lemma bestLoop_none_spec (l : Curve) (hne : l ≠ []) :
    ∃ b', bestLoop total_ram mem_per_job safe_frac cores max_jobs l none = some b' ∧
      (∃ p ∈ l, b' = candOf total_ram mem_per_job safe_frac cores max_jobs p) ∧
      ∀ p ∈ l, candLE (candOf total_ram mem_per_job safe_frac cores max_jobs p) b' := by
  match l with
  | [] => exact absurd rfl hne
  | p :: rest =>
    obtain ⟨b', hrun, hmem, hle, hall⟩ :=
      bestLoop_spec total_ram mem_per_job safe_frac cores max_jobs rest
        (candOf total_ram mem_per_job safe_frac cores max_jobs p)
    refine ⟨b', ?_, ?_, ?_⟩
    · simpa [bestLoop] using hrun
    · rcases hmem with h | ⟨q, hq, hb⟩
      · exact ⟨p, List.mem_cons_self p rest, h⟩
      · exact ⟨q, List.mem_cons_of_mem p hq, hb⟩
    · intro q hq
      rcases List.mem_cons.mp hq with h | h
      · exact h ▸ hle
      · exact hall q h

lemma best_thread_count_eq_none_iff (l : Curve) :
    best_thread_count l total_ram mem_per_job safe_frac cores max_jobs = none ↔ l = [] := by
  constructor
  · intro h
    by_contra hne
    obtain ⟨b', hrun, -, -⟩ :=
      bestLoop_none_spec total_ram mem_per_job safe_frac cores max_jobs l hne
    rw [best_thread_count, hrun] at h
    exact Option.noConfusion h
  · intro h
    subst h
    rfl

lemma best_thread_count_spec (l : Curve) (hne : l ≠ []) :
    ∃ p ∈ l,
      best_thread_count l total_ram mem_per_job safe_frac cores max_jobs =
        some ((candOf total_ram mem_per_job safe_frac cores max_jobs p).2.1,
              (candOf total_ram mem_per_job safe_frac cores max_jobs p).2.2,
              (candOf total_ram mem_per_job safe_frac cores max_jobs p).1) ∧
      ∀ q ∈ l, candLE (candOf total_ram mem_per_job safe_frac cores max_jobs q)
        (candOf total_ram mem_per_job safe_frac cores max_jobs p) := by
  obtain ⟨b', hrun, ⟨p, hp, hb⟩, hall⟩ :=
    bestLoop_none_spec total_ram mem_per_job safe_frac cores max_jobs l hne
  subst hb
  exact ⟨p, hp, by rw [best_thread_count, hrun], hall⟩

end BestLoopLemmas

section CapacityLemmas

lemma pyOr1_eq_max {v : ℤ} (hv : 0 ≤ v) : pyOr1 v = max 1 v := by
  unfold pyOr1; split <;> omega

lemma pyOr1_one_le {v : ℤ} (hv : 0 ≤ v) : 1 ≤ pyOr1 v := by
  unfold pyOr1; split <;> omega

lemma pyOr1Nat_eq_max (v : ℕ) : pyOr1Nat v = max 1 v := by
  unfold pyOr1Nat; split <;> omega

lemma pyOr1Nat_one_le (v : ℕ) : 1 ≤ pyOr1Nat v := by
  unfold pyOr1Nat; split <;> omega

lemma floor_budget_nonneg {total_ram safe_frac mem_per_job : ℚ}
    (hram : 0 < total_ram) (hsafe : 0 < safe_frac) (hmem : 0 < mem_per_job) :
    0 ≤ ⌊total_ram * safe_frac / mem_per_job⌋ :=
  Int.floor_nonneg.mpr (by positivity)

lemma ram_conc_one_le {total_ram safe_frac mem_per_job : ℚ}
    (hram : 0 < total_ram) (hsafe : 0 < safe_frac) (hmem : 0 < mem_per_job) :
    1 ≤ ram_conc total_ram safe_frac mem_per_job :=
  pyOr1_one_le (floor_budget_nonneg hram hsafe hmem)

lemma cpu_conc_one_le (cores t : ℕ) : 1 ≤ cpu_conc cores t :=
  pyOr1Nat_one_le _

lemma capacity_one_le {total_ram mem_per_job safe_frac : ℚ} {cores t : ℕ}
    {max_jobs : Option ℤ}
    (hram : 0 < total_ram) (hmem : 0 < mem_per_job) (hsafe : 0 < safe_frac)
    (hmj : ∀ m, max_jobs = some m → 1 ≤ m) :
    1 ≤ capacity total_ram mem_per_job safe_frac cores t max_jobs := by
  have h1 : 1 ≤ ram_conc total_ram safe_frac mem_per_job :=
    ram_conc_one_le hram hsafe hmem
  have h2 : (1:ℤ) ≤ (cpu_conc cores t : ℤ) := by
    exact_mod_cast cpu_conc_one_le cores t
  unfold capacity
  cases max_jobs with
  | none => exact le_min h1 h2
  | some m => exact le_min (le_min h1 h2) (hmj m rfl)

lemma capacity_le_cpu (total_ram mem_per_job safe_frac : ℚ) (cores t : ℕ)
    (max_jobs : Option ℤ) :
    capacity total_ram mem_per_job safe_frac cores t max_jobs ≤ (cpu_conc cores t : ℤ) := by
  unfold capacity
  cases max_jobs with
  | none => exact min_le_right _ _
  | some m => exact le_trans (min_le_left _ _) (min_le_right _ _)

end CapacityLemmas

/-- C2: for every thread count `t ≥ 1` and valid inputs, the concurrency
computed for `t` equals `min(cpu_conc, ram_conc, max_jobs when given)`
with `cpu_conc = max(1, floor(cores / t))` and
`ram_conc = max(1, floor(total_ram * safe_frac / mem_per_job))`, and this
concurrency is always at least 1. -/
theorem capacity_min_formula (total_ram mem_per_job safe_frac : ℚ) (cores t : ℕ)
    (max_jobs : Option ℤ) (ht : 1 ≤ t) (hcores : 1 ≤ cores)
    (hram : 0 < total_ram) (hmem : 0 < mem_per_job)
    (hsafe0 : 0 < safe_frac) (hsafe1 : safe_frac ≤ 1)
    (hmj : ∀ m, max_jobs = some m → 1 ≤ m) :
    (capacity total_ram mem_per_job safe_frac cores t none =
      min (max 1 ((cores / t : ℕ) : ℤ)) (max 1 ⌊total_ram * safe_frac / mem_per_job⌋)) ∧
    (∀ m : ℤ, capacity total_ram mem_per_job safe_frac cores t (some m) =
      min (min (max 1 ((cores / t : ℕ) : ℤ))
        (max 1 ⌊total_ram * safe_frac / mem_per_job⌋)) m) ∧
    1 ≤ capacity total_ram mem_per_job safe_frac cores t max_jobs := by
  have hfl : 0 ≤ ⌊total_ram * safe_frac / mem_per_job⌋ :=
    floor_budget_nonneg hram hsafe0 hmem
  have hcpu : (cpu_conc cores t : ℤ) = max 1 ((cores / t : ℕ) : ℤ) := by
    unfold cpu_conc
    rw [pyOr1Nat_eq_max]
    push_cast
    rfl
  have hramc : ram_conc total_ram safe_frac mem_per_job =
      max 1 ⌊total_ram * safe_frac / mem_per_job⌋ := by
    unfold ram_conc
    exact pyOr1_eq_max hfl
  refine ⟨?_, ?_, capacity_one_le hram hmem hsafe0 hmj⟩
  · show min (ram_conc total_ram safe_frac mem_per_job) (cpu_conc cores t : ℤ) = _
    rw [hcpu, hramc, min_comm]
  · intro m
    show min (min (ram_conc total_ram safe_frac mem_per_job) (cpu_conc cores t : ℤ)) m = _
    rw [hcpu, hramc, min_comm (max 1 ⌊total_ram * safe_frac / mem_per_job⌋)]

theorem capacity_min_formula_witness :
    (0:ℚ) < 64 ∧ 1 ≤ capacity 64 8 (9/10) 8 2 none :=
  ⟨by norm_num,
    (capacity_min_formula 64 8 (9/10) 8 2 none (by norm_num) (by norm_num) (by norm_num)
      (by norm_num) (by norm_num) (by norm_num) (fun m h => by cases h)).2.2⟩

/-- C1: on every non-empty runtime curve with valid inputs,
`best_thread_count` returns exactly the candidate maximizing the tuple
`(throughput_ref, thread_count, concurrency)` under left-to-right
lexicographic comparison over all keys of the curve, where
`throughput_ref = concurrency / minutes_per_job * 60`; ties on throughput
are resolved in favor of more threads, then more concurrency (the
lexicographic order `candLE`). -/
theorem best_thread_count_lex_max (runtime_curve : Curve)
    (total_ram mem_per_job safe_frac : ℚ) (cores : ℕ) (max_jobs : Option ℤ)
    (hne : runtime_curve ≠ []) (hcores : 1 ≤ cores)
    (hram : 0 < total_ram) (hmem : 0 < mem_per_job)
    (hsafe0 : 0 < safe_frac) (hsafe1 : safe_frac ≤ 1)
    (hmj : ∀ m, max_jobs = some m → 1 ≤ m) :
    ∃ t rt c tph, (t, rt) ∈ runtime_curve ∧
      c = capacity total_ram mem_per_job safe_frac cores t max_jobs ∧
      tph = (c : ℚ) / rt * 60 ∧
      best_thread_count runtime_curve total_ram mem_per_job safe_frac cores max_jobs =
        some (t, c, tph) ∧
      ∀ q ∈ runtime_curve,
        candLE (candOf total_ram mem_per_job safe_frac cores max_jobs q) (tph, t, c) := by
  obtain ⟨p, hp, hrun, hall⟩ :=
    best_thread_count_spec total_ram mem_per_job safe_frac cores max_jobs runtime_curve hne
  refine ⟨p.1, p.2, capacity total_ram mem_per_job safe_frac cores p.1 max_jobs,
    ((capacity total_ram mem_per_job safe_frac cores p.1 max_jobs : ℤ) : ℚ) / p.2 * 60,
    ?_, rfl, rfl, ?_, ?_⟩
  · simpa using hp
  · simpa [candOf] using hrun
  · intro q hq
    simpa [candOf] using hall q hq

theorem best_thread_count_lex_max_witness :
    ([((1:ℕ), (100:ℚ)), (2, 60), (4, 40), (8, 35)] ≠ []) ∧
    (∃ t rt c tph,
      ((t : ℕ), (rt : ℚ)) ∈ [((1:ℕ), (100:ℚ)), (2, 60), (4, 40), (8, 35)] ∧
      c = capacity 64 8 (9/10) 8 t none ∧
      tph = (c : ℚ) / rt * 60 ∧
      best_thread_count [((1:ℕ), (100:ℚ)), (2, 60), (4, 40), (8, 35)] 64 8 (9/10) 8 none =
        some (t, c, tph) ∧
      ∀ q ∈ [((1:ℕ), (100:ℚ)), (2, 60), (4, 40), (8, 35)],
        candLE (candOf 64 8 (9/10) 8 none q) (tph, t, c)) :=
  ⟨by simp,
    best_thread_count_lex_max [((1:ℕ), (100:ℚ)), (2, 60), (4, 40), (8, 35)] 64 8 (9/10) 8
      none (by simp) (by norm_num) (by norm_num) (by norm_num) (by norm_num) (by norm_num)
      (fun m h => by cases h)⟩

/-- C4: the curve is filtered to keys `t ≤ cores` before searching — a
key `t > cores` never appears in the filtered curve, and the thread count
the optimizer returns on the filtered curve always satisfies
`t ≤ cores`. -/
theorem mainCurve_bounds_threads (table : Curve) (total_ram mem_per_job safe_frac : ℚ)
    (cores : ℕ) (max_jobs : Option ℤ) :
    (∀ t rt, cores < t → (t, rt) ∉ mainCurve table cores) ∧
    (∀ t c tph,
      best_thread_count (mainCurve table cores) total_ram mem_per_job safe_frac cores
        max_jobs = some (t, c, tph) → t ≤ cores) := by
  constructor
  · intro t rt hgt hmem
    have hkeep := List.of_mem_filter hmem
    simp only [decide_eq_true_eq] at hkeep
    omega
  · intro t c tph hrun
    have hne : mainCurve table cores ≠ [] := by
      intro hnil
      have hnone := (best_thread_count_eq_none_iff total_ram mem_per_job safe_frac cores
        max_jobs (mainCurve table cores)).mpr hnil
      rw [hnone] at hrun
      exact Option.noConfusion hrun
    obtain ⟨p, hp, hrun2, -⟩ :=
      best_thread_count_spec total_ram mem_per_job safe_frac cores max_jobs
        (mainCurve table cores) hne
    rw [hrun] at hrun2
    have ht : t = p.1 := by
      simpa [candOf] using congrArg (fun o => (Option.map Prod.fst o).getD 0) hrun2
    have hkeep := List.of_mem_filter hp
    simp only [decide_eq_true_eq] at hkeep
    omega

theorem mainCurve_bounds_threads_witness :
    ((33 : ℕ), (10:ℚ)) ∉ mainCurve [((1:ℕ), (60:ℚ)), (33, 10)] 8 :=
  (mainCurve_bounds_threads [((1:ℕ), (60:ℚ)), (33, 10)] 64 8 (9/10) 8 none).1 33 10
    (by norm_num)

/-- C9: if every key `t` of the curve passed to the optimizer satisfies
`1 ≤ t ≤ cores`, then the returned thread count and concurrency satisfy
`thread_count * concurrency ≤ cores` for every RAM limit, safe fraction
and max_jobs cap, and the floor-to-1 branch of the CPU cap
(`cores // t or 1`) is unreachable: `cores / t` is never 0 on the keys of the
curve. -/
theorem no_cpu_oversubscription (runtime_curve : Curve)
    (total_ram mem_per_job safe_frac : ℚ) (cores : ℕ) (max_jobs : Option ℤ)
    (hkeys : ∀ p ∈ runtime_curve, 1 ≤ p.1 ∧ p.1 ≤ cores) :
    (∀ t c tph,
      best_thread_count runtime_curve total_ram mem_per_job safe_frac cores max_jobs =
        some (t, c, tph) → (t : ℤ) * c ≤ (cores : ℤ)) ∧
    (∀ p ∈ runtime_curve, cores / p.1 ≠ 0 ∧ cpu_conc cores p.1 = cores / p.1) := by
  have hcpu : ∀ p ∈ runtime_curve, cores / p.1 ≠ 0 ∧ cpu_conc cores p.1 = cores / p.1 := by
    intro p hp
    obtain ⟨h1, h2⟩ := hkeys p hp
    have hdiv : 1 ≤ cores / p.1 := (Nat.one_le_div_iff (by omega)).mpr h2
    refine ⟨by omega, ?_⟩
    unfold cpu_conc pyOr1Nat
    split <;> omega
  refine ⟨?_, hcpu⟩
  intro t c tph hrun
  have hne : runtime_curve ≠ [] := by
    intro hnil
    have hnone := (best_thread_count_eq_none_iff total_ram mem_per_job safe_frac cores
      max_jobs runtime_curve).mpr hnil
    rw [hnone] at hrun
    exact Option.noConfusion hrun
  obtain ⟨p, hp, hrun2, -⟩ :=
    best_thread_count_spec total_ram mem_per_job safe_frac cores max_jobs runtime_curve hne
  rw [hrun] at hrun2
  have ht : t = p.1 := by
    simpa [candOf] using congrArg (fun o => (Option.map Prod.fst o).getD 0) hrun2
  have hc : c = capacity total_ram mem_per_job safe_frac cores p.1 max_jobs := by
    simpa [candOf] using congrArg (fun o => (Option.map (fun b => b.2.1) o).getD 0) hrun2
  have hcap := capacity_le_cpu total_ram mem_per_job safe_frac cores p.1 max_jobs
  have hcc : cpu_conc cores p.1 = cores / p.1 := (hcpu p hp).2
  rw [hcc] at hcap
  have hmul : (cores / p.1 : ℕ) * p.1 ≤ cores := Nat.div_mul_le_self cores p.1
  have hcast : ((cores / p.1 : ℕ) : ℤ) * (p.1 : ℤ) ≤ (cores : ℤ) := by exact_mod_cast hmul
  have hcnn : (0 : ℤ) ≤ (p.1 : ℤ) := by positivity
  calc (t : ℤ) * c = c * (p.1 : ℤ) := by rw [ht, mul_comm]
    _ ≤ ((cores / p.1 : ℕ) : ℤ) * (p.1 : ℤ) := by
        apply mul_le_mul_of_nonneg_right _ hcnn
        rw [hc]
        exact hcap
    _ ≤ (cores : ℤ) := hcast

theorem no_cpu_oversubscription_witness :
    ((1 : ℕ) : ℤ) * 7 ≤ ((8 : ℕ) : ℤ) :=
  (no_cpu_oversubscription [((1:ℕ), (100:ℚ)), (2, 60), (4, 40), (8, 35)] 64 8 (9/10) 8
    none (by norm_num)).1 1 7 (21/5)
    (by norm_num [best_thread_count, bestLoop, candOf, capacity, ram_conc, cpu_conc,
      pyOr1, pyOr1Nat, candGT])

/-- C3: the optimizer fails (returns `none`, modelling the raised
exception) if and only if the curve it is given to search is empty; on
any non-empty curve it returns exactly one candidate, and on failure it
produces nothing else. -/
theorem best_fails_iff_empty_curve (l : Curve) (total_ram mem_per_job safe_frac : ℚ)
    (cores : ℕ) (max_jobs : Option ℤ) :
    (best_thread_count l total_ram mem_per_job safe_frac cores max_jobs = none ↔ l = []) ∧
    (l ≠ [] → ∃ t c tph,
      best_thread_count l total_ram mem_per_job safe_frac cores max_jobs = some (t, c, tph)) := by
  refine ⟨best_thread_count_eq_none_iff total_ram mem_per_job safe_frac cores max_jobs l, ?_⟩
  intro hne
  obtain ⟨p, -, hrun, -⟩ :=
    best_thread_count_spec total_ram mem_per_job safe_frac cores max_jobs l hne
  exact ⟨_, _, _, hrun⟩

theorem best_fails_iff_empty_curve_witness :
    ([((1:ℕ), (60:ℚ))] ≠ []) ∧
    (best_thread_count [] 64 8 (9/10) 8 none = none ↔ ([] : Curve) = []) :=
  ⟨by simp, (best_fails_iff_empty_curve [] 64 8 (9/10) 8 none).1⟩

/-- C7: for every ideal thread count strictly between two tabulated keys
`lower < ideal < upper`, the linearly interpolated runtime lies between
the two endpoint runtimes inclusive. -/
theorem interpRuntime_between (lower upper ideal : ℕ) (m_low m_high : ℚ)
    (h1 : lower < ideal) (h2 : ideal < upper) :
    min m_low m_high ≤ interpRuntime lower upper m_low m_high ideal ∧
    interpRuntime lower upper m_low m_high ideal ≤ max m_low m_high := by
  have hlu : (lower : ℚ) < (upper : ℚ) := by exact_mod_cast h1.trans h2
  have hd : (0:ℚ) < (upper : ℚ) - (lower : ℚ) := by linarith
  have hx0 : (0:ℚ) ≤ (ideal : ℚ) - (lower : ℚ) := by
    have h : (lower : ℚ) ≤ (ideal : ℚ) := by exact_mod_cast h1.le
    linarith
  have hxd : (ideal : ℚ) - (lower : ℚ) ≤ (upper : ℚ) - (lower : ℚ) := by
    have h : (ideal : ℚ) ≤ (upper : ℚ) := by exact_mod_cast h2.le
    linarith
  have hr0 : 0 ≤ ((ideal : ℚ) - (lower : ℚ)) / ((upper : ℚ) - (lower : ℚ)) :=
    div_nonneg hx0 hd.le
  have hr1 : ((ideal : ℚ) - (lower : ℚ)) / ((upper : ℚ) - (lower : ℚ)) ≤ 1 :=
    (div_le_one hd).mpr hxd
  have hi : interpRuntime lower upper m_low m_high ideal =
      m_low + (m_high - m_low) * (((ideal : ℚ) - (lower : ℚ)) / ((upper : ℚ) - (lower : ℚ))) := by
    unfold interpRuntime
    rw [mul_div_assoc]
  rcases le_total m_low m_high with h | h
  · rw [min_eq_left h, max_eq_right h, hi]
    constructor
    · nlinarith
    · nlinarith
  · rw [min_eq_right h, max_eq_left h, hi]
    constructor
    · nlinarith
    · nlinarith

theorem interpRuntime_between_witness :
    (8:ℕ) < 10 ∧ min (35:ℚ) 32 ≤ interpRuntime 8 12 35 32 10 :=
  ⟨by norm_num, (interpRuntime_between 8 12 10 35 32 (by norm_num) (by norm_num)).1⟩

/-- C8: holding everything else fixed, increasing `mem_per_job` never
increases the RAM-bounded concurrency: for all `0 < m1 ≤ m2`,
`ram_conc(m2) ≤ ram_conc(m1)`. -/
theorem ram_conc_antitone (total_ram safe_frac m1 m2 : ℚ)
    (hram : 0 < total_ram) (hsafe : 0 < safe_frac) (h1 : 0 < m1) (h12 : m1 ≤ m2) :
    ram_conc total_ram safe_frac m2 ≤ ram_conc total_ram safe_frac m1 := by
  have h2 : 0 < m2 := lt_of_lt_of_le h1 h12
  have hx : 0 ≤ total_ram * safe_frac := by positivity
  have hdiv : total_ram * safe_frac / m2 ≤ total_ram * safe_frac / m1 :=
    div_le_div_of_nonneg_left hx h1 h12
  have hfl := Int.floor_mono hdiv
  have hf1 : 0 ≤ ⌊total_ram * safe_frac / m1⌋ :=
    floor_budget_nonneg hram hsafe h1
  have hf2 : 0 ≤ ⌊total_ram * safe_frac / m2⌋ :=
    floor_budget_nonneg hram hsafe h2
  unfold ram_conc pyOr1
  split <;> split <;> omega

theorem ram_conc_antitone_witness :
    (0:ℚ) < 8 ∧ ram_conc 64 (9/10) 16 ≤ ram_conc 64 (9/10) 8 :=
  ⟨by norm_num, ram_conc_antitone 64 (9/10) 8 16 (by norm_num) (by norm_num)
    (by norm_num) (by norm_num)⟩

section BatchLemmas

lemma fdiv_natCast (m n : ℕ) : Int.fdiv (m : ℤ) (n : ℤ) = ((m / n : ℕ) : ℤ) := by
  cases m with
  | zero => simp [Int.fdiv]
  | succ m => rfl

lemma floor_natCast_div (n c : ℕ) (hc : 0 < c) :
    ⌊(n : ℚ) / (c : ℚ)⌋ = ((n / c : ℕ) : ℤ) := by
  have hc0 : (0:ℚ) < (c:ℚ) := by exact_mod_cast hc
  rw [Int.floor_eq_iff]
  constructor
  · rw [le_div_iff₀ hc0]
    exact_mod_cast Nat.div_mul_le_self n c
  · rw [div_lt_iff₀ hc0]
    have h3 : n < (n / c + 1) * c := by
      have h1 := Nat.div_add_mod n c
      have h2 := Nat.mod_lt n hc
      calc n = c * (n / c) + n % c := h1.symm
        _ < c * (n / c) + c := by omega
        _ = (n / c + 1) * c := by ring
    exact_mod_cast h3

lemma best_thread_count_isSome (l : Curve) (total_ram mem_per_job safe_frac : ℚ)
    (cores : ℕ) (max_jobs : Option ℤ) (hne : l ≠ []) :
    ∃ b, best_thread_count l total_ram mem_per_job safe_frac cores max_jobs = some b := by
  obtain ⟨p, -, hrun, -⟩ :=
    best_thread_count_spec total_ram mem_per_job safe_frac cores max_jobs l hne
  exact ⟨_, hrun⟩

end BatchLemmas

/-- C5: in the two-phase batch plan, for every total job count `N`
exceeding the chosen full-phase concurrency `C ≥ 1`:
`full_batches = floor(N / C)`, phase 1 covers `done = full_batches * C`
jobs, the remainder equals `N - done` with `0 ≤ remainder < C`, and the
total wall-time estimate equals phase-1 seconds plus phase-2 seconds
(phase-2 seconds being 0 when the remainder is 0). -/
theorem batchPlan_arithmetic (curve : Curve) (total_ram mem_per_job safe_frac : ℚ)
    (cores : ℕ) (k : ℚ) (total C : ℕ) (ref_tph_full : ℚ)
    (hcur : curve ≠ []) (hC : 1 ≤ C) (hN : (C : ℤ) < (total : ℤ)) :
    ∃ p, batchPlan curve total_ram mem_per_job safe_frac cores k total (C : ℤ)
        ref_tph_full = some p ∧
      p.full_batches = ⌊(total : ℚ) / (C : ℚ)⌋ ∧
      p.done = p.full_batches * (C : ℤ) ∧
      p.remain = (total : ℤ) - p.done ∧
      0 ≤ p.remain ∧ p.remain < (C : ℤ) ∧
      p.total_sec = p.t1 + p.t2 ∧
      (p.remain = 0 → p.t2 = 0) := by
  have hfd : Int.fdiv (total : ℤ) ((C : ℕ) : ℤ) = ((total / C : ℕ) : ℤ) :=
    fdiv_natCast total C
  have hfl : ⌊(total : ℚ) / (C : ℚ)⌋ = ((total / C : ℕ) : ℤ) :=
    floor_natCast_div total C (by omega)
  have h2 : total % C < C := Nat.mod_lt total (by omega)
  have hrem : (total : ℤ) - ((total / C : ℕ) : ℤ) * (C : ℤ) = ((total % C : ℕ) : ℤ) := by
    have h1 : ((C : ℕ) : ℤ) * ((total / C : ℕ) : ℤ) + ((total % C : ℕ) : ℤ) =
        ((total : ℕ) : ℤ) := by
      exact_mod_cast Nat.div_add_mod total C
    rw [mul_comm]
    omega
  have hCZ : (0 : ℤ) < ((C : ℕ) : ℤ) := by exact_mod_cast (by omega : 0 < C)
  simp only [batchPlan, hfd]
  by_cases h0 : (total : ℤ) - ((total / C : ℕ) : ℤ) * (C : ℤ) = 0
  · rw [if_pos h0]
    refine ⟨_, rfl, ?_, rfl, rfl, ?_, ?_, ?_, ?_⟩
    · exact hfl.symm
    · exact le_of_eq h0.symm
    · exact lt_of_eq_of_lt h0 hCZ
    · show _ = _ + (0:ℚ)
      rw [add_zero]
    · intro
      rfl
  · rw [if_neg h0]
    obtain ⟨b, hb⟩ := best_thread_count_isSome curve total_ram mem_per_job safe_frac cores
      (some ((total : ℤ) - ((total / C : ℕ) : ℤ) * (C : ℤ))) hcur
    rw [hb]
    refine ⟨_, rfl, ?_, rfl, rfl, ?_, ?_, rfl, ?_⟩
    · exact hfl.symm
    · exact le_of_le_of_eq (Int.natCast_nonneg _) hrem.symm
    · exact lt_of_eq_of_lt hrem (by exact_mod_cast h2)
    · intro hz
      exact absurd hz h0

theorem batchPlan_arithmetic_witness :
    (1:ℕ) ≤ 2 ∧
    ∃ p, batchPlan [((1:ℕ), (60:ℚ))] 64 8 (9/10) 8 1 5 ((2:ℕ) : ℤ) 4 = some p ∧
      0 ≤ p.remain ∧ p.remain < ((2:ℕ) : ℤ) := by
  refine ⟨by norm_num, ?_⟩
  obtain ⟨p, hp, -, -, -, h4, h5, -, -⟩ :=
    batchPlan_arithmetic [((1:ℕ), (60:ℚ))] 64 8 (9/10) 8 1 5 2 4 (by simp)
      (by norm_num) (by norm_num)
  exact ⟨p, hp, h4, h5⟩

section MonotoneLemmas

lemma capacity_cap_mono (total_ram mem_per_job safe_frac : ℚ) (cores t : ℕ)
    {m1 m2 : ℤ} (h : m1 ≤ m2) :
    capacity total_ram mem_per_job safe_frac cores t (some m1) ≤
      capacity total_ram mem_per_job safe_frac cores t (some m2) :=
  min_le_min (le_refl _) h

lemma capacity_cap_le_none (total_ram mem_per_job safe_frac : ℚ) (cores t : ℕ) (m : ℤ) :
    capacity total_ram mem_per_job safe_frac cores t (some m) ≤
      capacity total_ram mem_per_job safe_frac cores t none :=
  min_le_left _ _

lemma candOf_fst_mono (total_ram mem_per_job safe_frac : ℚ) (cores : ℕ)
    (mjA mjB : Option ℤ) (p : ℕ × ℚ) (hrt : 0 < p.2)
    (hcap : capacity total_ram mem_per_job safe_frac cores p.1 mjA ≤
      capacity total_ram mem_per_job safe_frac cores p.1 mjB) :
    (candOf total_ram mem_per_job safe_frac cores mjA p).1 ≤
      (candOf total_ram mem_per_job safe_frac cores mjB p).1 := by
  simp only [candOf]
  have hc : ((capacity total_ram mem_per_job safe_frac cores p.1 mjA : ℤ) : ℚ) ≤
      ((capacity total_ram mem_per_job safe_frac cores p.1 mjB : ℤ) : ℚ) := by
    exact_mod_cast hcap
  have hd : ((capacity total_ram mem_per_job safe_frac cores p.1 mjA : ℤ) : ℚ) / p.2 ≤
      ((capacity total_ram mem_per_job safe_frac cores p.1 mjB : ℤ) : ℚ) / p.2 :=
    (div_le_div_iff_of_pos_right hrt).mpr hc
  exact mul_le_mul_of_nonneg_right hd (by norm_num)

lemma best_fst_le_best (curve : Curve) (total_ram mem_per_job safe_frac : ℚ)
    (cores : ℕ) (mjA mjB : Option ℤ)
    (hpt : ∀ p ∈ curve, (candOf total_ram mem_per_job safe_frac cores mjA p).1 ≤
      (candOf total_ram mem_per_job safe_frac cores mjB p).1)
    {bA bB : ℕ × ℤ × ℚ}
    (hA : best_thread_count curve total_ram mem_per_job safe_frac cores mjA = some bA)
    (hB : best_thread_count curve total_ram mem_per_job safe_frac cores mjB = some bB) :
    bA.2.2 ≤ bB.2.2 := by
  have hne : curve ≠ [] := by
    intro hnil
    rw [(best_thread_count_eq_none_iff total_ram mem_per_job safe_frac cores mjA
      curve).mpr hnil] at hA
    exact Option.noConfusion hA
  obtain ⟨pA, hpA, hrunA, -⟩ :=
    best_thread_count_spec total_ram mem_per_job safe_frac cores mjA curve hne
  obtain ⟨pB, hpB, hrunB, hallB⟩ :=
    best_thread_count_spec total_ram mem_per_job safe_frac cores mjB curve hne
  rw [hA] at hrunA
  rw [hB] at hrunB
  have hA2 : bA.2.2 = (candOf total_ram mem_per_job safe_frac cores mjA pA).1 := by
    rw [Option.some.inj hrunA]
  have hB2 : bB.2.2 = (candOf total_ram mem_per_job safe_frac cores mjB pB).1 := by
    rw [Option.some.inj hrunB]
  have hmid := candLE_fst (hallB pA hpA)
  calc bA.2.2 = (candOf total_ram mem_per_job safe_frac cores mjA pA).1 := hA2
    _ ≤ (candOf total_ram mem_per_job safe_frac cores mjB pA).1 := hpt pA hpA
    _ ≤ (candOf total_ram mem_per_job safe_frac cores mjB pB).1 := hmid
    _ = bB.2.2 := hB2.symm

lemma best_fst_nonneg (curve : Curve) (total_ram mem_per_job safe_frac : ℚ)
    (cores : ℕ) (max_jobs : Option ℤ)
    (hrt : ∀ p ∈ curve, 0 < p.2)
    (hram : 0 < total_ram) (hmem : 0 < mem_per_job) (hsafe : 0 < safe_frac)
    (hmj : ∀ m, max_jobs = some m → 1 ≤ m)
    {b : ℕ × ℤ × ℚ}
    (hb : best_thread_count curve total_ram mem_per_job safe_frac cores max_jobs = some b) :
    0 ≤ b.2.2 := by
  have hne : curve ≠ [] := by
    intro hnil
    rw [(best_thread_count_eq_none_iff total_ram mem_per_job safe_frac cores max_jobs
      curve).mpr hnil] at hb
    exact Option.noConfusion hb
  obtain ⟨p, hp, hrun, -⟩ :=
    best_thread_count_spec total_ram mem_per_job safe_frac cores max_jobs curve hne
  rw [hb] at hrun
  have hb2 : b.2.2 = (candOf total_ram mem_per_job safe_frac cores max_jobs p).1 := by
    rw [Option.some.inj hrun]
  rw [hb2]
  simp only [candOf]
  have hcap : (0:ℤ) ≤ capacity total_ram mem_per_job safe_frac cores p.1 max_jobs :=
    le_trans (by norm_num) (capacity_one_le hram hmem hsafe hmj)
  have hc : (0:ℚ) ≤ ((capacity total_ram mem_per_job safe_frac cores p.1 max_jobs : ℤ) : ℚ) := by
    exact_mod_cast hcap
  have hrtp := hrt p hp
  exact mul_nonneg (div_nonneg hc hrtp.le) (by norm_num)

end MonotoneLemmas

/-- C10: for a fixed curve, hardware and memory constraints, the
best reference throughput of the optimizer is monotone in the `max_jobs` cap
(`m1 ≤ m2` gives throughput at `m1` ≤ throughput at `m2`), both are
bounded by the unconstrained best, and consequently in the two-phase plan
the phase-2 remainder throughput never exceeds the phase-1 full-batch
throughput. -/
theorem best_tph_monotone_in_cap (curve : Curve) (total_ram mem_per_job safe_frac : ℚ)
    (cores : ℕ) (k : ℚ) (m1 m2 : ℤ)
    (hrt : ∀ p ∈ curve, 0 < p.2)
    (hram : 0 < total_ram) (hmem : 0 < mem_per_job) (hsafe : 0 < safe_frac)
    (hm1 : 1 ≤ m1) (hm12 : m1 ≤ m2) (hk : 0 ≤ k) :
    (∀ bA bB : ℕ × ℤ × ℚ,
      best_thread_count curve total_ram mem_per_job safe_frac cores (some m1) = some bA →
      best_thread_count curve total_ram mem_per_job safe_frac cores (some m2) = some bB →
      bA.2.2 ≤ bB.2.2) ∧
    (∀ bB bU : ℕ × ℤ × ℚ,
      best_thread_count curve total_ram mem_per_job safe_frac cores (some m2) = some bB →
      best_thread_count curve total_ram mem_per_job safe_frac cores none = some bU →
      bB.2.2 ≤ bU.2.2) ∧
    (∀ (bU : ℕ × ℤ × ℚ) (total : ℕ) (p : BatchPlan),
      best_thread_count curve total_ram mem_per_job safe_frac cores none = some bU →
      batchPlan curve total_ram mem_per_job safe_frac cores k total bU.2.1 bU.2.2 =
        some p →
      p.tph2 ≤ p.tph1) := by
  have hptm : ∀ p ∈ curve,
      (candOf total_ram mem_per_job safe_frac cores (some m1) p).1 ≤
        (candOf total_ram mem_per_job safe_frac cores (some m2) p).1 :=
    fun p hp => candOf_fst_mono total_ram mem_per_job safe_frac cores _ _ p (hrt p hp)
      (capacity_cap_mono total_ram mem_per_job safe_frac cores p.1 hm12)
  have hptn : ∀ m : ℤ, ∀ p ∈ curve,
      (candOf total_ram mem_per_job safe_frac cores (some m) p).1 ≤
        (candOf total_ram mem_per_job safe_frac cores none p).1 :=
    fun m p hp => candOf_fst_mono total_ram mem_per_job safe_frac cores _ _ p (hrt p hp)
      (capacity_cap_le_none total_ram mem_per_job safe_frac cores p.1 m)
  refine ⟨?_, ?_, ?_⟩
  · intro bA bB hA hB
    exact best_fst_le_best curve total_ram mem_per_job safe_frac cores _ _ hptm hA hB
  · intro bB bU hB hU
    exact best_fst_le_best curve total_ram mem_per_job safe_frac cores _ _ (hptn m2) hB hU
  · intro bU total p hU hplan
    have hU0 : 0 ≤ bU.2.2 :=
      best_fst_nonneg curve total_ram mem_per_job safe_frac cores none hrt hram hmem hsafe
        (fun m h => by cases h) hU
    simp only [batchPlan] at hplan
    by_cases h0 : (total : ℤ) - Int.fdiv (total : ℤ) bU.2.1 * bU.2.1 = 0
    · rw [if_pos h0] at hplan
      obtain rfl := Option.some.inj hplan
      show (0:ℚ) ≤ bU.2.2 * k
      exact mul_nonneg hU0 hk
    · rw [if_neg h0] at hplan
      cases hb : best_thread_count curve total_ram mem_per_job safe_frac cores
          (some ((total : ℤ) - Int.fdiv (total : ℤ) bU.2.1 * bU.2.1)) with
      | none =>
        rw [hb] at hplan
        exact Option.noConfusion hplan
      | some b =>
        rw [hb] at hplan
        obtain rfl := Option.some.inj hplan
        show b.2.2 * k ≤ bU.2.2 * k
        have hle : b.2.2 ≤ bU.2.2 :=
          best_fst_le_best curve total_ram mem_per_job safe_frac cores _ _ (hptn _) hb hU
        exact mul_le_mul_of_nonneg_right hle hk

theorem best_tph_monotone_in_cap_witness :
    (0:ℚ) < 64 ∧ (3:ℚ) ≤ 4 := by
  refine ⟨by norm_num, ?_⟩
  have h1 : best_thread_count [((1:ℕ), (100:ℚ)), (2, 60), (4, 40), (8, 35)] 64 8 (9/10) 8
      (some 2) = some (4, 2, 3) := by
    norm_num [best_thread_count, bestLoop, candOf, capacity, ram_conc, cpu_conc, pyOr1,
      pyOr1Nat, candGT]
  have h2 : best_thread_count [((1:ℕ), (100:ℚ)), (2, 60), (4, 40), (8, 35)] 64 8 (9/10) 8
      (some 4) = some (2, 4, 4) := by
    norm_num [best_thread_count, bestLoop, candOf, capacity, ram_conc, cpu_conc, pyOr1,
      pyOr1Nat, candGT]
  have h3 := (best_tph_monotone_in_cap [((1:ℕ), (100:ℚ)), (2, 60), (4, 40), (8, 35)]
    64 8 (9/10) 8 1 2 4 (by decide) (by norm_num) (by norm_num) (by norm_num)
    (by norm_num) (by norm_num) (by norm_num)).1 (4, 2, 3) (2, 4, 4) h1 h2
  simpa using h3

section ShortcutLemmas

lemma lookup_isSome_of_mem_keys {table : Curve} {a : ℕ}
    (h : a ∈ table.map Prod.fst) : ∃ rt, table.lookup a = some rt := by
  induction table with
  | nil => simp at h
  | cons p rest ih =>
    by_cases he : a = p.1
    · exact ⟨p.2, by simp [List.lookup, he]⟩
    · simp only [List.map_cons, List.mem_cons] at h
      rcases h with h | h
      · exact absurd h he
      · obtain ⟨rt, hrt⟩ := ih h
        refine ⟨rt, ?_⟩
        have hbe : (a == p.1) = false := beq_eq_false_iff_ne.mpr he
        simp [List.lookup, hbe, hrt]

lemma shortcut_above_range (table : Curve) (cores subjects : ℕ)
    (hne : table ≠ [])
    (hl : table.lookup (idealThreads cores subjects) = none)
    (hall : ∀ p ∈ table, p.1 < idealThreads cores subjects) :
    ∃ tn rt, shortcut table cores subjects = some (tn, rt) ∧
      tn ∈ table.map Prod.fst ∧ (∀ p ∈ table, p.1 ≤ tn) ∧
      table.lookup tn = some rt := by
  have hfilt_lt : (table.map Prod.fst).filter
      (fun t => decide (t < idealThreads cores subjects)) = table.map Prod.fst := by
    rw [List.filter_eq_self]
    intro a ha
    rcases List.mem_map.mp ha with ⟨p, hp, rfl⟩
    exact decide_eq_true (hall p hp)
  have hfilt_gt : (table.map Prod.fst).filter
      (fun t => decide (idealThreads cores subjects < t)) = [] := by
    rw [List.filter_eq_nil_iff]
    intro a ha
    rcases List.mem_map.mp ha with ⟨p, hp, rfl⟩
    have hlt := hall p hp
    simp only [decide_eq_true_eq]
    omega
  have hkne : table.map Prod.fst ≠ [] := by
    simpa using hne
  obtain ⟨m, hm⟩ : ∃ m, (table.map Prod.fst).max? = some m := by
    cases hq : (table.map Prod.fst).max? with
    | none => exact absurd (List.max?_eq_none_iff.mp hq) hkne
    | some m => exact ⟨m, rfl⟩
  have hmspec : m ∈ table.map Prod.fst ∧ ∀ b ∈ table.map Prod.fst, b ≤ m :=
    (List.max?_eq_some_iff (fun a => Nat.le_refl a) (fun a b => max_choice a b)
      (fun a b c => max_le_iff)).mp hm
  obtain ⟨rt, hrt⟩ := lookup_isSome_of_mem_keys hmspec.1
  refine ⟨m, rt, ?_, hmspec.1, ?_, hrt⟩
  · simp only [shortcut, hl, hfilt_lt, hfilt_gt, hm, List.min?_nil, hrt]
  · intro p hp
    exact hmspec.2 p.1 (List.mem_map_of_mem Prod.fst hp)

lemma shortcut_below_range (table : Curve) (cores subjects : ℕ)
    (hne : table ≠ [])
    (hl : table.lookup (idealThreads cores subjects) = none)
    (hall : ∀ p ∈ table, idealThreads cores subjects < p.1) :
    ∃ tn rt, shortcut table cores subjects = some (tn, rt) ∧
      tn ∈ table.map Prod.fst ∧ (∀ p ∈ table, tn ≤ p.1) ∧
      table.lookup tn = some rt := by
  have hfilt_gt : (table.map Prod.fst).filter
      (fun t => decide (idealThreads cores subjects < t)) = table.map Prod.fst := by
    rw [List.filter_eq_self]
    intro a ha
    rcases List.mem_map.mp ha with ⟨p, hp, rfl⟩
    exact decide_eq_true (hall p hp)
  have hfilt_lt : (table.map Prod.fst).filter
      (fun t => decide (t < idealThreads cores subjects)) = [] := by
    rw [List.filter_eq_nil_iff]
    intro a ha
    rcases List.mem_map.mp ha with ⟨p, hp, rfl⟩
    have hlt := hall p hp
    simp only [decide_eq_true_eq]
    omega
  have hkne : table.map Prod.fst ≠ [] := by
    simpa using hne
  obtain ⟨m, hm⟩ : ∃ m, (table.map Prod.fst).min? = some m := by
    cases hq : (table.map Prod.fst).min? with
    | none => exact absurd (List.min?_eq_none_iff.mp hq) hkne
    | some m => exact ⟨m, rfl⟩
  have hmspec : m ∈ table.map Prod.fst ∧ ∀ b ∈ table.map Prod.fst, m ≤ b :=
    (List.min?_eq_some_iff (fun a => Nat.le_refl a) (fun a b => min_choice a b)
      (fun a b c => le_min_iff)).mp hm
  obtain ⟨rt, hrt⟩ := lookup_isSome_of_mem_keys hmspec.1
  refine ⟨m, rt, ?_, hmspec.1, ?_, hrt⟩
  · simp only [shortcut, hl, hfilt_lt, hfilt_gt, hm, List.max?_nil, hrt]
  · intro p hp
    exact hmspec.2 p.1 (List.mem_map_of_mem Prod.fst hp)

end ShortcutLemmas

/-- C6: the shortcut path runs only when `subjects > 0` and
`cores > subjects`; it sets `ideal = clamp(floor(cores / subjects), 1,
PLATEAU)` with `PLATEAU = CAP_THREADS = 24`; when `ideal` is not a
tabulated key and lies outside the range of tabulated keys (all keys
below it, or all keys above it) it uses the runtime of the nearest key and
resets `ideal` to that key; in particular for `cores = 64`,
`subjects = 2` and curve keys `{8: 35, 12: 32}` the reported ideal is 12
with the runtime of that key, and concurrency is fixed at the subject
count (2). -/
theorem shortcut_clamp_and_scenario_D :
    CAP_THREADS = 24 ∧
    (∀ subjects cores : ℕ, shortcutTriggered subjects cores = true ↔
      (0 < subjects ∧ subjects < cores)) ∧
    (∀ cores subjects : ℕ, idealThreads cores subjects =
      min (max 1 (cores / subjects)) 24) ∧
    (∀ (table : Curve) (cores subjects : ℕ), table ≠ [] →
      table.lookup (idealThreads cores subjects) = none →
      (∀ p ∈ table, p.1 < idealThreads cores subjects) →
      ∃ tn rt, shortcut table cores subjects = some (tn, rt) ∧
        tn ∈ table.map Prod.fst ∧ (∀ p ∈ table, p.1 ≤ tn) ∧
        table.lookup tn = some rt) ∧
    (∀ (table : Curve) (cores subjects : ℕ), table ≠ [] →
      table.lookup (idealThreads cores subjects) = none →
      (∀ p ∈ table, idealThreads cores subjects < p.1) →
      ∃ tn rt, shortcut table cores subjects = some (tn, rt) ∧
        tn ∈ table.map Prod.fst ∧ (∀ p ∈ table, tn ≤ p.1) ∧
        table.lookup tn = some rt) ∧
    shortcutTriggered 2 64 = true ∧
    shortcut [(8, (35:ℚ)), (12, 32)] 64 2 = some (12, 32) ∧
    shortcutConc 2 = 2 := by
  refine ⟨rfl, ?_, ?_, shortcut_above_range, shortcut_below_range, ?_, ?_, rfl⟩
  · intro subjects cores
    simp [shortcutTriggered]
  · intro cores subjects
    rfl
  · decide
  · decide

end MRIWorkflow
